import Mathlib

/-!
Verification of the sensitive-data redaction engine
(`scripts/redact_sensitive.py`).

The Python module is embedded shallowly over `List Char`:

* `SSN_RE = \b(\d{3})[- ]?(\d{2})[- ]?(\d{4})\b` becomes the backtracking
  matcher `matchSSN`;
* `PAN_CANDIDATE_RE = \b(?:\d[ -]?){13,19}\b` becomes `panLoop` / `matchPAN`;
  the counted repetition is driven by the remaining iteration budget
  (starting at 19) together with the number of completed iterations, so the
  matcher is structurally recursive and executable;
* `re.sub` (leftmost, non-overlapping, resume after each match) becomes the
  scanners `subSSN` / `subPAN`; the scanner carries the word-character status
  of the character just before the scan position, which is what the regex
  word-boundary assertion `\b` reads, and a fuel argument equal to the length
  of the text (each scan step consumes at least one character, so this fuel
  is never exhausted);
* `luhn_is_valid`, `normalize_digits`, `redact_ssns`, `redact_pans`,
  `redact_text` are translated directly;
* the per-file part of `main` (extension denylist, NUL-byte binary
  heuristic, decode, redact, skip-identical-output) becomes `processFile`,
  with the text decoder abstracted as a function argument (Python codecs are
  an external collaborator).

Word characters are modelled as ASCII alphanumerics plus underscore, the
ASCII restriction of Python's `\w`; digits are ASCII `0`-`9` (`\d`).
-/

set_option maxRecDepth 10000

/-- Word character for the regex word-boundary assertion: alphanumeric or
underscore (ASCII restriction of Python's `\w`). -/
def isWordChar (c : Char) : Bool := c.isAlphanum || c == '_'

/-- The separator class `[- ]` of both patterns. -/
def isSep (c : Char) : Bool := c == '-' || c == ' '

/-- The word-boundary assertion `\b` at a scan position: `prevW` is the
word-character status of the character immediately before the position,
and `s` is the remaining text (whose head is the character at the
position). `\b` holds iff the two statuses differ. -/
def boundaryB (prevW : Bool) (s : List Char) : Bool :=
  prevW != (match s with | [] => false | c :: _ => isWordChar c)

/-- Match exactly `n` decimal digits (`\d{n}`), returning the consumed
characters and the remaining text. -/
def takeDigits : Nat → List Char → Option (List Char × List Char)
  | 0, s => some ([], s)
  | _ + 1, [] => none
  | n + 1, c :: r =>
    if c.isDigit then (takeDigits n r).map (fun p => (c :: p.1, p.2)) else none

/-- Tail `\d{4}\b` of the SSN pattern (the character before the trailing
`\b` is the fourth digit, a word character). -/
def ssnTail2 (r : List Char) : Option (List Char × List Char) :=
  match takeDigits 4 r with
  | some (d4, rest) => if boundaryB true rest then some (d4, rest) else none
  | none => none

/-- Tail `\d{2}[- ]?\d{4}\b` of the SSN pattern, with the greedy optional
separator tried first and backtracked on failure. -/
def ssnTail1 (r : List Char) : Option (List Char × List Char) :=
  match takeDigits 2 r with
  | some (d2, rest) =>
    match rest with
    | c :: r2 =>
      if isSep c then
        match ssnTail2 r2 with
        | some (m, rr) => some (d2 ++ c :: m, rr)
        | none => (ssnTail2 rest).map (fun p => (d2 ++ p.1, p.2))
      else (ssnTail2 rest).map (fun p => (d2 ++ p.1, p.2))
    | [] => (ssnTail2 rest).map (fun p => (d2 ++ p.1, p.2))
  | none => none

/-- `SSN_RE = \b(\d{3})[- ]?(\d{2})[- ]?(\d{4})\b` matched at the current
scan position, `prevW` being the word status of the preceding character.
Returns the matched span and the remaining text. -/
def matchSSN (prevW : Bool) (s : List Char) : Option (List Char × List Char) :=
  if boundaryB prevW s then
    match takeDigits 3 s with
    | some (d3, r) =>
      match r with
      | c :: r2 =>
        if isSep c then
          match ssnTail1 r2 with
          | some (m, rr) => some (d3 ++ c :: m, rr)
          | none => (ssnTail1 r).map (fun p => (d3 ++ p.1, p.2))
        else (ssnTail1 r).map (fun p => (d3 ++ p.1, p.2))
      | [] => (ssnTail1 r).map (fun p => (d3 ++ p.1, p.2))
    | none => none
  else none

/-- Stopping the counted repetition `(?:\d[ -]?){13,19}`: allowed once at
least 13 iterations are complete, and followed by the trailing `\b`. -/
def panStop (done : Nat) (prevW : Bool) (s : List Char) :
    Option (List Char × List Char) :=
  if 13 ≤ done then (if boundaryB prevW s then some ([], s) else none)
  else none

/-- Backtracking search for `(?:\d[ -]?){13,19}\b`.  `budget` is the number
of iterations still allowed (19 at entry), `done` the number completed, and
`prevW` the word status of the last consumed character.  Greedy order:
another iteration with its optional separator consumed, then the iteration
without the separator, then stopping. -/
def panLoop : Nat → Nat → Bool → List Char → Option (List Char × List Char)
  | 0, done, prevW, s => panStop done prevW s
  | budget + 1, done, prevW, s =>
    match s with
    | [] => panStop done prevW []
    | c :: r =>
      if c.isDigit then
        match r with
        | c2 :: r2 =>
          if isSep c2 then
            match panLoop budget (done + 1) false r2 with
            | some (m, rest) => some (c :: c2 :: m, rest)
            | none =>
              match panLoop budget (done + 1) true r with
              | some (m, rest) => some (c :: m, rest)
              | none => panStop done prevW s
          else
            match panLoop budget (done + 1) true r with
            | some (m, rest) => some (c :: m, rest)
            | none => panStop done prevW s
        | [] =>
          match panLoop budget (done + 1) true [] with
          | some (m, rest) => some (c :: m, rest)
          | none => panStop done prevW s
      else panStop done prevW s

/-- `PAN_CANDIDATE_RE = \b(?:\d[ -]?){13,19}\b` matched at the current scan
position. -/
def matchPAN (prevW : Bool) (s : List Char) : Option (List Char × List Char) :=
  if boundaryB prevW s then panLoop 19 0 prevW s else none

/-- `luhn_is_valid`'s loop: running total of the (possibly doubled) digit
values, `i` the 0-based index of the current character, `parity = n % 2`. -/
def luhnGo (parity : Nat) : Nat → List Char → Nat
  | _, [] => 0
  | i, ch :: rest =>
    (let d := ch.toNat - 48
     let d2 := if i % 2 = parity then (if d * 2 > 9 then d * 2 - 9 else d * 2) else d
     d2 + luhnGo parity (i + 1) rest)

/-- `luhn_is_valid(digits)` from the source: double the digit at each left
index whose parity equals `len(digits) % 2`, subtract 9 from doubled values
above 9, and test the sum modulo 10. -/
def luhn_is_valid (digits : List Char) : Bool :=
  luhnGo (digits.length % 2) 0 digits % 10 == 0

/-- `normalize_digits(s)`: strip every non-digit character (`re.sub(r"\D+", "", s)`). -/
def normalize_digits (s : List Char) : List Char := s.filter (fun c => c.isDigit)

/-- The `RedactionStats` dataclass. -/
structure RedactionStats where
  ssn_redactions : Nat := 0
  pan_redactions : Nat := 0
deriving DecidableEq

/-- The fixed replacement token for SSNs. -/
def redTokSSN : List Char := "[REDACTED_SSN]".toList

/-- The fixed replacement token for PANs. -/
def redTokPAN : List Char := "[REDACTED_PAN]".toList

/-- Word status of the character before the resumed scan position after a
match: the last character of the matched span (`prevW` if the span were
empty, which never happens for these patterns). -/
def prevAfter (pw : Bool) (m : List Char) : Bool :=
  match m.getLast? with
  | some c => isWordChar c
  | none => pw

/-- The `SSN_RE.sub` scan: at each position try `matchSSN`; on a match emit
`[REDACTED_SSN]`, count it, and resume after the match; otherwise copy one
character.  `fuel` bounds the number of scan steps; `redact_ssns` passes the
text length, which is enough because every step consumes at least one
character. -/
def subSSN : Nat → Bool → List Char → List Char × Nat
  | 0, _, s => (s, 0)
  | fuel + 1, pw, s =>
    match matchSSN pw s with
    | some (m, rest) =>
      let p := subSSN fuel (prevAfter pw m) rest
      (redTokSSN ++ p.1, p.2 + 1)
    | none =>
      match s with
      | [] => ([], 0)
      | c :: r =>
        let p := subSSN fuel (isWordChar c) r
        (c :: p.1, p.2)

/-- `redact_ssns(text)`: the substitution scan from the start of the text
(no preceding character, so `prevW = false`). -/
def redact_ssns (text : List Char) : List Char × Nat :=
  subSSN text.length false text

/-- The `PAN_CANDIDATE_RE.sub` scan with the `_sub` callback of
`redact_pans`: a matched candidate is replaced by `[REDACTED_PAN]` (and
counted) only if its normalized digit count lies in `[13, 19]` and passes
the Luhn check; otherwise the candidate is emitted unchanged. -/
def subPAN : Nat → Bool → List Char → List Char × Nat
  | 0, _, s => (s, 0)
  | fuel + 1, pw, s =>
    match matchPAN pw s with
    | some (m, rest) =>
      let p := subPAN fuel (prevAfter pw m) rest
      let digits := normalize_digits m
      if 13 ≤ digits.length ∧ digits.length ≤ 19 then
        if luhn_is_valid digits then (redTokPAN ++ p.1, p.2 + 1)
        else (m ++ p.1, p.2)
      else (m ++ p.1, p.2)
    | none =>
      match s with
      | [] => ([], 0)
      | c :: r =>
        let p := subPAN fuel (isWordChar c) r
        (c :: p.1, p.2)

/-- `redact_pans(text)`. -/
def redact_pans (text : List Char) : List Char × Nat :=
  subPAN text.length false text

/-- `redact_text(text, do_ssn=..., do_pan=...)`: the SSN pass first (when
enabled), then the PAN pass on its output (when enabled), accumulating the
two counters into a `RedactionStats`. -/
def redact_text (text : List Char) (do_ssn do_pan : Bool) :
    List Char × RedactionStats :=
  let stats : RedactionStats := {}
  let step1 :=
    if do_ssn then
      let p := redact_ssns text
      (p.1, { stats with ssn_redactions := stats.ssn_redactions + p.2 })
    else (text, stats)
  let step2 :=
    if do_pan then
      let p := redact_pans step1.1
      (p.1, { step1.2 with pan_redactions := step1.2.pan_redactions + p.2 })
    else step1
  step2

/-- Lower-casing of a file extension (`p.suffix.lower()`). -/
def lowerStr (s : List Char) : List Char := s.map Char.toLower

/-- The extension denylist of `main` (binary-ish formats skipped outright). -/
def binaryExts : List (List Char) :=
  [".docx".toList, ".pdf".toList, ".png".toList, ".jpg".toList,
    ".jpeg".toList, ".gif".toList, ".webp".toList]

/-- The per-file step of `main`: skip denylisted extensions, skip files
whose raw bytes contain a NUL byte, otherwise decode (the decoder abstracts
the Python codec, replacement fallback included), redact, and skip files
whose redacted text is identical to the input.  `none` means the file is
skipped and nothing is written for it. -/
def processFile (suffix : List Char) (bytes : List Nat)
    (decode : List Nat → List Char) (do_ssn do_pan : Bool) :
    Option (List Char × RedactionStats) :=
  if binaryExts.contains (lowerStr suffix) then none
  else if bytes.contains 0 then none
  else
    let text := decode bytes
    let p := redact_text text do_ssn do_pan
    if p.1 = text then none else some p

/-- What a file adds to the run-wide counters `total_ssn` / `total_pan`:
its redaction statistics when it is processed and written, `(0, 0)` when it
is skipped (`main` increments the totals only after the skip checks). -/
def fileContribution (suffix : List Char) (bytes : List Nat)
    (decode : List Nat → List Char) (do_ssn do_pan : Bool) : Nat × Nat :=
  match processFile suffix bytes decode do_ssn do_pan with
  | some p => (p.2.ssn_redactions, p.2.pan_redactions)
  | none => (0, 0)

/-! ### Basic facts about characters and digit normalization -/

theorem normalize_digits_append (a b : List Char) :
    normalize_digits (a ++ b) = normalize_digits a ++ normalize_digits b := by
  simp [normalize_digits, List.filter_append]

theorem normalize_digits_all {l : List Char} (h : ∀ c ∈ l, c.isDigit = true) :
    normalize_digits l = l :=
  List.filter_eq_self.mpr h

theorem isSep_not_digit {c : Char} (h : isSep c = true) : c.isDigit = false := by
  simp only [isSep, Bool.or_eq_true, beq_iff_eq] at h
  rcases h with h | h <;> subst h <;> decide

theorem digit_isWordChar {c : Char} (h : c.isDigit = true) : isWordChar c = true := by
  simp [isWordChar, Char.isAlphanum, h]

theorem nd_sep_cons {c : Char} (hs : isSep c = true) (l : List Char) :
    normalize_digits (c :: l) = normalize_digits l := by
  simp [normalize_digits, List.filter_cons, isSep_not_digit hs]

theorem nd_digit_cons {c : Char} (hc : c.isDigit = true) (l : List Char) :
    normalize_digits (c :: l) = c :: normalize_digits l := by
  simp [normalize_digits, List.filter_cons, hc]

/-! ### Structure of SSN matches -/

theorem takeDigits_eq : ∀ (n : Nat) (s d r : List Char),
    takeDigits n s = some (d, r) →
    d ++ r = s ∧ d.length = n ∧ ∀ c ∈ d, c.isDigit = true := by
  intro n
  induction n with
  | zero =>
    intro s d r h
    simp only [takeDigits, Option.some.injEq, Prod.mk.injEq] at h
    obtain ⟨h1, h2⟩ := h
    subst h1; subst h2
    simp
  | succ n ih =>
    intro s d r h
    cases s with
    | nil => simp [takeDigits] at h
    | cons c cs =>
      simp only [takeDigits] at h
      by_cases hc : c.isDigit = true
      · rw [if_pos hc] at h
        rcases Option.map_eq_some'.mp h with ⟨⟨d2, r2⟩, htd, heq⟩
        cases heq
        obtain ⟨ih1, ih2, ih3⟩ := ih cs d2 r2 htd
        refine ⟨by rw [List.cons_append, ih1], by simp [ih2], ?_⟩
        intro x hx
        rcases List.mem_cons.mp hx with hx | hx
        · subst hx; exact hc
        · exact ih3 x hx
      · rw [if_neg hc] at h
        cases h

theorem ssnTail2_eq {r m rr : List Char} (h : ssnTail2 r = some (m, rr)) :
    m ++ rr = r ∧ normalize_digits m = m ∧ m.length = 4 := by
  unfold ssnTail2 at h
  split at h
  next d4 rest htd =>
    split at h
    next hb =>
      simp only [Option.some.injEq, Prod.mk.injEq] at h
      obtain ⟨h1, h2⟩ := h
      subst h1; subst h2
      obtain ⟨g1, g2, g3⟩ := takeDigits_eq 4 r d4 rest htd
      exact ⟨g1, normalize_digits_all g3, g2⟩
    next hb => cases h
  next => cases h

theorem ssnTail1_eq {r m rr : List Char} (h : ssnTail1 r = some (m, rr)) :
    m ++ rr = r ∧ 6 ≤ (normalize_digits m).length := by
  unfold ssnTail1 at h
  split at h
  next d2 rest htd =>
    obtain ⟨h1, h2, h3⟩ := takeDigits_eq 2 r d2 rest htd
    have hnd2 : normalize_digits d2 = d2 := normalize_digits_all h3
    split at h
    next c rest2 =>
      split at h
      next hs =>
        split at h
        next m2 rr2 ht2 =>
          simp only [Option.some.injEq, Prod.mk.injEq] at h
          obtain ⟨e1, e2⟩ := h
          subst e1; subst e2
          obtain ⟨g1, g2, g3⟩ := ssnTail2_eq ht2
          refine ⟨?_, ?_⟩
          · rw [← h1, List.append_assoc]
            simp [← g1]
          · rw [normalize_digits_append, hnd2, nd_sep_cons hs, g2]
            simp [h2, g3]
        next ht2 =>
          rcases Option.map_eq_some'.mp h with ⟨⟨m3, rr3⟩, ht3, heq⟩
          cases heq
          obtain ⟨g1, g2, g3⟩ := ssnTail2_eq ht3
          refine ⟨by rw [List.append_assoc, g1, h1], ?_⟩
          rw [normalize_digits_append, hnd2, g2]
          simp [h2, g3]
      next hs =>
        rcases Option.map_eq_some'.mp h with ⟨⟨m3, rr3⟩, ht3, heq⟩
        cases heq
        obtain ⟨g1, g2, g3⟩ := ssnTail2_eq ht3
        refine ⟨by rw [List.append_assoc, g1, h1], ?_⟩
        rw [normalize_digits_append, hnd2, g2]
        simp [h2, g3]
    next =>
      rcases Option.map_eq_some'.mp h with ⟨⟨m3, rr3⟩, ht3, heq⟩
      cases heq
      obtain ⟨g1, g2, g3⟩ := ssnTail2_eq ht3
      refine ⟨by rw [List.append_assoc, g1, h1], ?_⟩
      rw [normalize_digits_append, hnd2, g2]
      simp [h2, g3]
  next => cases h

theorem matchSSN_eq {pw : Bool} {s m rest : List Char}
    (h : matchSSN pw s = some (m, rest)) :
    m ++ rest = s ∧ 9 ≤ (normalize_digits m).length := by
  unfold matchSSN at h
  split at h
  case isTrue hb =>
    split at h
    next d3 r htd =>
      obtain ⟨h1, h2, h3⟩ := takeDigits_eq 3 s d3 r htd
      have hnd3 : normalize_digits d3 = d3 := normalize_digits_all h3
      split at h
      next c r2 =>
        split at h
        next hs =>
          split at h
          next m2 rr2 ht1 =>
            simp only [Option.some.injEq, Prod.mk.injEq] at h
            obtain ⟨e1, e2⟩ := h
            subst e1; subst e2
            obtain ⟨g1, g2⟩ := ssnTail1_eq ht1
            refine ⟨?_, ?_⟩
            · rw [← h1, List.append_assoc]
              simp [← g1]
            · rw [normalize_digits_append, hnd3, nd_sep_cons hs]
              simp only [List.length_append, h2]
              omega
          next ht1 =>
            rcases Option.map_eq_some'.mp h with ⟨⟨m3, rr3⟩, ht3, heq⟩
            cases heq
            obtain ⟨g1, g2⟩ := ssnTail1_eq ht3
            refine ⟨by rw [List.append_assoc, g1, h1], ?_⟩
            rw [normalize_digits_append, hnd3]
            simp only [List.length_append, h2]
            omega
        next hs =>
          rcases Option.map_eq_some'.mp h with ⟨⟨m3, rr3⟩, ht3, heq⟩
          cases heq
          obtain ⟨g1, g2⟩ := ssnTail1_eq ht3
          refine ⟨by rw [List.append_assoc, g1, h1], ?_⟩
          rw [normalize_digits_append, hnd3]
          simp only [List.length_append, h2]
          omega
      next =>
        rcases Option.map_eq_some'.mp h with ⟨⟨m3, rr3⟩, ht3, heq⟩
        cases heq
        obtain ⟨g1, g2⟩ := ssnTail1_eq ht3
        refine ⟨by rw [List.append_assoc, g1, h1], ?_⟩
        rw [normalize_digits_append, hnd3]
        simp only [List.length_append, h2]
        omega
    next => cases h
  case isFalse hb => cases h

theorem nd_cons_false {c : Char} (hc : c.isDigit = false) (l : List Char) :
    normalize_digits (c :: l) = normalize_digits l := by
  simp [normalize_digits, List.filter_cons, hc]

/-! ### Structure of PAN matches -/

theorem panStop_eq {done : Nat} {pw : Bool} {s m rest : List Char}
    (h : panStop done pw s = some (m, rest)) :
    m = [] ∧ rest = s ∧ 13 ≤ done := by
  unfold panStop at h
  split at h
  next h13 =>
    split at h
    next hb =>
      simp only [Option.some.injEq, Prod.mk.injEq] at h
      exact ⟨h.1.symm, h.2.symm, h13⟩
    next => cases h
  next => cases h

theorem panLoop_eq : ∀ (budget done : Nat) (pw : Bool) (s m rest : List Char),
    panLoop budget done pw s = some (m, rest) →
    m ++ rest = s ∧ 13 ≤ done + (normalize_digits m).length ∧
      (normalize_digits m).length ≤ budget := by
  intro budget
  induction budget with
  | zero =>
    intro done pw s m rest h
    simp only [panLoop] at h
    obtain ⟨e1, e2, e3⟩ := panStop_eq h
    subst e1; subst e2
    refine ⟨rfl, ?_, ?_⟩ <;> simp [normalize_digits] <;> omega
  | succ budget ih =>
    intro done pw s m rest h
    simp only [panLoop] at h
    split at h
    next =>
      obtain ⟨e1, e2, e3⟩ := panStop_eq h
      subst e1; subst e2
      refine ⟨rfl, ?_, ?_⟩ <;> simp [normalize_digits] <;> omega
    next c r =>
      split at h
      next hc =>
        split at h
        next c2 r2 =>
          split at h
          next hs2 =>
            split at h
            next m2 rest2 hrec =>
              simp only [Option.some.injEq, Prod.mk.injEq] at h
              obtain ⟨e1, e2⟩ := h
              subst e1; subst e2
              obtain ⟨g1, g2, g3⟩ := ih (done + 1) false r2 m2 rest2 hrec
              refine ⟨by simp [g1], ?_, ?_⟩ <;>
                rw [nd_digit_cons hc, nd_sep_cons hs2] <;> simp <;> omega
            next =>
              split at h
              next m2 rest2 hrec =>
                simp only [Option.some.injEq, Prod.mk.injEq] at h
                obtain ⟨e1, e2⟩ := h
                subst e1; subst e2
                obtain ⟨g1, g2, g3⟩ := ih (done + 1) true (c2 :: r2) m2 rest2 hrec
                refine ⟨by simp [g1], ?_, ?_⟩ <;>
                  rw [nd_digit_cons hc] <;> simp <;> omega
              next =>
                obtain ⟨e1, e2, e3⟩ := panStop_eq h
                subst e1; subst e2
                refine ⟨rfl, ?_, ?_⟩ <;> simp [normalize_digits] <;> omega
          next hs2 =>
            split at h
            next m2 rest2 hrec =>
              simp only [Option.some.injEq, Prod.mk.injEq] at h
              obtain ⟨e1, e2⟩ := h
              subst e1; subst e2
              obtain ⟨g1, g2, g3⟩ := ih (done + 1) true (c2 :: r2) m2 rest2 hrec
              refine ⟨by simp [g1], ?_, ?_⟩ <;>
                rw [nd_digit_cons hc] <;> simp <;> omega
            next =>
              obtain ⟨e1, e2, e3⟩ := panStop_eq h
              subst e1; subst e2
              refine ⟨rfl, ?_, ?_⟩ <;> simp [normalize_digits] <;> omega
        next =>
          split at h
          next m2 rest2 hrec =>
            simp only [Option.some.injEq, Prod.mk.injEq] at h
            obtain ⟨e1, e2⟩ := h
            subst e1; subst e2
            obtain ⟨g1, g2, g3⟩ := ih (done + 1) true [] m2 rest2 hrec
            refine ⟨by simp [g1], ?_, ?_⟩ <;>
              rw [nd_digit_cons hc] <;> simp <;> omega
          next =>
            obtain ⟨e1, e2, e3⟩ := panStop_eq h
            subst e1; subst e2
            refine ⟨rfl, ?_, ?_⟩ <;> simp [normalize_digits] <;> omega
      next hc =>
        obtain ⟨e1, e2, e3⟩ := panStop_eq h
        subst e1; subst e2
        refine ⟨rfl, ?_, ?_⟩ <;> simp [normalize_digits] <;> omega

theorem matchPAN_eq {pw : Bool} {s m rest : List Char}
    (h : matchPAN pw s = some (m, rest)) :
    m ++ rest = s ∧ 13 ≤ (normalize_digits m).length ∧
      (normalize_digits m).length ≤ 19 := by
  unfold matchPAN at h
  split at h
  next hb =>
    obtain ⟨g1, g2, g3⟩ := panLoop_eq 19 0 pw s m rest h
    exact ⟨g1, by omega, g3⟩
  next => cases h

/-! ### Scanner lemmas -/

theorem matchSSN_nil (pw : Bool) : matchSSN pw [] = none := by
  unfold matchSSN
  split <;> rfl

theorem matchPAN_nil (pw : Bool) : matchPAN pw [] = none := by
  unfold matchPAN
  split <;> rfl

theorem subSSN_nil (fuel : Nat) (pw : Bool) : subSSN fuel pw [] = ([], 0) := by
  cases fuel <;> simp [subSSN, matchSSN_nil]

theorem subPAN_nil (fuel : Nat) (pw : Bool) : subPAN fuel pw [] = ([], 0) := by
  cases fuel <;> simp [subPAN, matchPAN_nil]

theorem subSSN_count_zero : ∀ (fuel : Nat) (pw : Bool) (s : List Char),
    (subSSN fuel pw s).2 = 0 → (subSSN fuel pw s).1 = s := by
  intro fuel
  induction fuel with
  | zero => intro pw s _; rfl
  | succ fuel ih =>
    intro pw s h
    rcases hm : matchSSN pw s with _ | ⟨m, rest⟩
    · simp only [subSSN, hm] at h ⊢
      cases s with
      | nil => rfl
      | cons c r =>
        simp only at h ⊢
        rw [ih (isWordChar c) r h]
    · simp only [subSSN, hm] at h
      omega

theorem subPAN_count_zero : ∀ (fuel : Nat) (pw : Bool) (s : List Char),
    (subPAN fuel pw s).2 = 0 → (subPAN fuel pw s).1 = s := by
  intro fuel
  induction fuel with
  | zero => intro pw s _; rfl
  | succ fuel ih =>
    intro pw s h
    rcases hm : matchPAN pw s with _ | ⟨m, rest⟩
    · simp only [subPAN, hm] at h ⊢
      cases s with
      | nil => rfl
      | cons c r =>
        simp only at h ⊢
        rw [ih (isWordChar c) r h]
    · obtain ⟨g1, _, _⟩ := matchPAN_eq hm
      simp only [subPAN, hm] at h ⊢
      split at h
      next hguard =>
        split at h
        next hluhn => omega
        next hluhn =>
          rw [ih (prevAfter pw m) rest h, g1]
          simp [hguard, hluhn]
      next hguard =>
        rw [ih (prevAfter pw m) rest h, g1]
        simp [hguard]

theorem nd_redTokSSN : normalize_digits redTokSSN = [] := by decide

theorem nd_redTokPAN : normalize_digits redTokPAN = [] := by decide

theorem subSSN_digits : ∀ (fuel : Nat) (pw : Bool) (s : List Char),
    (normalize_digits (subSSN fuel pw s).1).length + 9 * (subSSN fuel pw s).2 ≤
      (normalize_digits s).length := by
  intro fuel
  induction fuel with
  | zero => intro pw s; simp [subSSN]
  | succ fuel ih =>
    intro pw s
    rcases hm : matchSSN pw s with _ | ⟨m, rest⟩
    · simp only [subSSN, hm]
      cases s with
      | nil => simp [normalize_digits]
      | cons c r =>
        simp only
        have := ih (isWordChar c) r
        by_cases hc : c.isDigit = true
        · rw [nd_digit_cons hc, nd_digit_cons hc]
          simp only [List.length_cons]
          omega
        · rw [nd_cons_false (by simpa using hc), nd_cons_false (by simpa using hc)]
          exact this
    · obtain ⟨g1, g2⟩ := matchSSN_eq hm
      simp only [subSSN, hm]
      have hrest := ih (prevAfter pw m) rest
      have hsplit : (normalize_digits s).length =
          (normalize_digits m).length + (normalize_digits rest).length := by
        rw [← g1, normalize_digits_append, List.length_append]
      rw [normalize_digits_append, nd_redTokSSN]
      simp only [List.nil_append, List.length_nil]
      omega

theorem subPAN_digits : ∀ (fuel : Nat) (pw : Bool) (s : List Char),
    (normalize_digits (subPAN fuel pw s).1).length + 13 * (subPAN fuel pw s).2 ≤
      (normalize_digits s).length := by
  intro fuel
  induction fuel with
  | zero => intro pw s; simp [subPAN]
  | succ fuel ih =>
    intro pw s
    rcases hm : matchPAN pw s with _ | ⟨m, rest⟩
    · simp only [subPAN, hm]
      cases s with
      | nil => simp [normalize_digits]
      | cons c r =>
        simp only
        have := ih (isWordChar c) r
        by_cases hc : c.isDigit = true
        · rw [nd_digit_cons hc, nd_digit_cons hc]
          simp only [List.length_cons]
          omega
        · rw [nd_cons_false (by simpa using hc), nd_cons_false (by simpa using hc)]
          exact this
    · obtain ⟨g1, g2, g3⟩ := matchPAN_eq hm
      simp only [subPAN, hm]
      have hrest := ih (prevAfter pw m) rest
      have hsplit : (normalize_digits s).length =
          (normalize_digits m).length + (normalize_digits rest).length := by
        rw [← g1, normalize_digits_append, List.length_append]
      split
      next =>
        split
        next =>
          rw [normalize_digits_append, nd_redTokPAN]
          simp only [List.nil_append, List.length_nil]
          omega
        next =>
          rw [normalize_digits_append, List.length_append]
          omega
      next =>
        rw [normalize_digits_append, List.length_append]
        omega

/-! ### Texts without digits are fixed points of both passes -/

theorem digit_not_sep {c : Char} (hc : c.isDigit = true) : isSep c = false := by
  cases hs : isSep c
  · rfl
  · rw [isSep_not_digit hs] at hc
    cases hc

theorem takeDigits_succ_head {n : Nat} {c : Char} {r : List Char}
    (hc : c.isDigit = false) : takeDigits (n + 1) (c :: r) = none := by
  simp [takeDigits, hc]

theorem matchSSN_nodigit {pw : Bool} {s : List Char}
    (h : ∀ c ∈ s, c.isDigit = false) : matchSSN pw s = none := by
  unfold matchSSN
  split
  · cases s with
    | nil => rfl
    | cons c r =>
      have : takeDigits 3 (c :: r) = none := takeDigits_succ_head (h c (by simp))
      rw [this]
  · rfl

theorem panStop_zero (pw : Bool) (s : List Char) : panStop 0 pw s = none := by
  simp [panStop]

theorem panLoop_done_zero : ∀ (budget : Nat) (pw : Bool) (s : List Char),
    (∀ c r, s = c :: r → c.isDigit = false) → panLoop budget 0 pw s = none := by
  intro budget pw s h
  cases budget with
  | zero => simp [panLoop, panStop_zero]
  | succ b =>
    cases s with
    | nil => simp [panLoop, panStop_zero]
    | cons c r => simp [panLoop, panStop_zero, h c r rfl]

theorem matchPAN_nodigit {pw : Bool} {s : List Char}
    (h : ∀ c ∈ s, c.isDigit = false) : matchPAN pw s = none := by
  unfold matchPAN
  split
  · exact panLoop_done_zero 19 pw s (fun c r hcr => h c (by simp [hcr]))
  · rfl

theorem subSSN_nodigit : ∀ (fuel : Nat) (pw : Bool) (s : List Char),
    (∀ c ∈ s, c.isDigit = false) → subSSN fuel pw s = (s, 0) := by
  intro fuel
  induction fuel with
  | zero => intro pw s _; rfl
  | succ fuel ih =>
    intro pw s h
    simp only [subSSN, matchSSN_nodigit h]
    cases s with
    | nil => rfl
    | cons c r =>
      simp only
      rw [ih (isWordChar c) r (fun x hx => h x (List.mem_cons_of_mem _ hx))]

theorem subPAN_nodigit : ∀ (fuel : Nat) (pw : Bool) (s : List Char),
    (∀ c ∈ s, c.isDigit = false) → subPAN fuel pw s = (s, 0) := by
  intro fuel
  induction fuel with
  | zero => intro pw s _; rfl
  | succ fuel ih =>
    intro pw s h
    simp only [subPAN, matchPAN_nodigit h]
    cases s with
    | nil => rfl
    | cons c r =>
      simp only
      rw [ih (isWordChar c) r (fun x hx => h x (List.mem_cons_of_mem _ hx))]

/-! ### Behaviour on unbroken digit runs -/

theorem panLoop_alldigit : ∀ (s : List Char) (budget done : Nat) (pw : Bool),
    (∀ c ∈ s, c.isDigit = true) → s.length ≤ budget → 13 ≤ done + s.length →
    (s = [] → pw = true) →
    panLoop budget done pw s = some (s, []) := by
  intro s
  induction s with
  | nil =>
    intro budget done pw _ _ h13 hpw
    have hd : 13 ≤ done := by simpa using h13
    rw [hpw rfl]
    cases budget with
    | zero => simp [panLoop, panStop, boundaryB, hd]
    | succ b => simp [panLoop, panStop, boundaryB, hd]
  | cons c r ih =>
    intro budget done pw hdig hlen h13 _
    have hc : c.isDigit = true := hdig c (by simp)
    cases budget with
    | zero => simp at hlen
    | succ b =>
      simp only [panLoop, hc, if_true]
      cases r with
      | nil =>
        have hrec := ih b (done + 1) true (by simp) (by simp)
          (by simp at h13 ⊢; omega) (fun _ => rfl)
        simp [hrec]
      | cons c2 r2 =>
        have hc2 : c2.isDigit = true := hdig c2 (by simp)
        have hs2 : isSep c2 = false := digit_not_sep hc2
        have hrec := ih b (done + 1) true
          (fun x hx => hdig x (List.mem_cons_of_mem _ hx))
          (by simp at hlen ⊢; omega)
          (by simp at h13 ⊢; omega)
          (fun h => nomatch h)
        simp [hs2, hrec]

theorem matchPAN_alldigit {s : List Char} (hdig : ∀ c ∈ s, c.isDigit = true)
    (hlen13 : 13 ≤ s.length) (hlen19 : s.length ≤ 19) :
    matchPAN false s = some (s, []) := by
  cases s with
  | nil => simp at hlen13
  | cons c r =>
    have hc : c.isDigit = true := hdig c (by simp)
    unfold matchPAN
    have hb : boundaryB false (c :: r) = true := by
      simp [boundaryB, digit_isWordChar hc]
    rw [if_pos hb]
    exact panLoop_alldigit (c :: r) 19 0 false hdig hlen19 (by simpa using hlen13)
      (fun h => nomatch h)

theorem boundaryB_true_digit {l : List Char} (hd : ∀ c ∈ l, c.isDigit = true)
    (hne : l ≠ []) : boundaryB true l = false := by
  cases l with
  | nil => exact absurd rfl hne
  | cons c r => simp [boundaryB, digit_isWordChar (hd c (by simp))]

theorem matchSSN_true_digit_head {c : Char} {r : List Char} (hc : c.isDigit = true) :
    matchSSN true (c :: r) = none := by
  unfold matchSSN
  have hb : boundaryB true (c :: r) = false := by
    simp [boundaryB, digit_isWordChar hc]
  simp [hb]

theorem subSSN_alldigit_true : ∀ (fuel : Nat) (s : List Char),
    (∀ c ∈ s, c.isDigit = true) → subSSN fuel true s = (s, 0) := by
  intro fuel
  induction fuel with
  | zero => intro s _; rfl
  | succ fuel ih =>
    intro s h
    cases s with
    | nil => exact subSSN_nil _ _
    | cons c r =>
      have hc : c.isDigit = true := h c (by simp)
      simp only [subSSN, matchSSN_true_digit_head hc]
      simp only [digit_isWordChar hc]
      rw [ih r (fun x hx => h x (List.mem_cons_of_mem _ hx))]

theorem takeDigits_all : ∀ (n : Nat) (s : List Char),
    (∀ c ∈ s, c.isDigit = true) → n ≤ s.length →
    takeDigits n s = some (s.take n, s.drop n) := by
  intro n
  induction n with
  | zero => intro s _ _; simp [takeDigits]
  | succ n ih =>
    intro s hdig hlen
    cases s with
    | nil => simp at hlen
    | cons c r =>
      have hc : c.isDigit = true := hdig c (by simp)
      simp only [takeDigits, hc, if_true]
      rw [ih r (fun x hx => hdig x (List.mem_cons_of_mem _ hx)) (by simpa using hlen)]
      simp

theorem ssnTail2_fail {r : List Char} (hdig : ∀ c ∈ r, c.isDigit = true)
    (hlen : 5 ≤ r.length) : ssnTail2 r = none := by
  unfold ssnTail2
  rw [takeDigits_all 4 r hdig (by omega)]
  have hne : r.drop 4 ≠ [] := by
    intro hcontra
    have := congrArg List.length hcontra
    simp at this
    omega
  have hb : boundaryB true (r.drop 4) = false :=
    boundaryB_true_digit (fun c hc => hdig c (List.mem_of_mem_drop hc)) hne
  simp [hb]

theorem ssnTail1_fail {r : List Char} (hdig : ∀ c ∈ r, c.isDigit = true)
    (hlen : 7 ≤ r.length) : ssnTail1 r = none := by
  unfold ssnTail1
  rw [takeDigits_all 2 r hdig (by omega)]
  have hdrop : ∀ c ∈ r.drop 2, c.isDigit = true :=
    fun c hc => hdig c (List.mem_of_mem_drop hc)
  have hdlen : 5 ≤ (r.drop 2).length := by simp; omega
  rcases hd : r.drop 2 with _ | ⟨c, r2⟩
  · rw [hd] at hdlen
    simp at hdlen
  · rw [hd] at hdrop hdlen
    have hc : c.isDigit = true := hdrop c (by simp)
    simp only [digit_not_sep hc, if_false]
    rw [ssnTail2_fail hdrop hdlen]
    rfl

theorem matchSSN_false_longdigit {s : List Char} (hdig : ∀ c ∈ s, c.isDigit = true)
    (hlen : 10 ≤ s.length) : matchSSN false s = none := by
  unfold matchSSN
  rw [takeDigits_all 3 s hdig (by omega)]
  have hdrop : ∀ c ∈ s.drop 3, c.isDigit = true :=
    fun c hc => hdig c (List.mem_of_mem_drop hc)
  have hdlen : 7 ≤ (s.drop 3).length := by simp; omega
  split
  · rcases hd : s.drop 3 with _ | ⟨c, r2⟩
    · rw [hd] at hdlen
      simp at hdlen
    · rw [hd] at hdrop hdlen
      have hc : c.isDigit = true := hdrop c (by simp)
      simp only [digit_not_sep hc, if_false]
      rw [ssnTail1_fail hdrop hdlen]
      rfl
  · rfl

theorem subSSN_alldigit_false {s : List Char} (hdig : ∀ c ∈ s, c.isDigit = true)
    (hlen : 10 ≤ s.length) :
    ∀ fuel : Nat, subSSN fuel false s = (s, 0) := by
  intro fuel
  cases fuel with
  | zero => rfl
  | succ fuel =>
    simp only [subSSN, matchSSN_false_longdigit hdig hlen]
    cases s with
    | nil => rfl
    | cons c r =>
      have hc : c.isDigit = true := hdig c (by simp)
      simp only [digit_isWordChar hc]
      rw [subSSN_alldigit_true fuel r (fun x hx => hdig x (List.mem_cons_of_mem _ hx))]

/-! ### The Luhn validator agrees with the right-to-left reference algorithm -/

/-- The contribution of one digit character to a Luhn sum: doubled (with 9
subtracted when the result exceeds 9) iff `dbl`. -/
def luhnDigit (dbl : Bool) (ch : Char) : Nat :=
  let d := ch.toNat - 48
  if dbl then (if d * 2 > 9 then d * 2 - 9 else d * 2) else d

/-- Modelled from the spec: the standard Luhn reference algorithm processes
the digits from the right, doubling every second digit counting from the
second-rightmost.  `luhnRefGo dbl l` walks `l` (the digit string already
reversed, so rightmost first) with `dbl` alternating, starting at `false`
for the rightmost digit. -/
def luhnRefGo : Bool → List Char → Nat
  | _, [] => 0
  | dbl, ch :: rest => luhnDigit dbl ch + luhnRefGo (!dbl) rest

/-- Modelled from the spec: validity under the reference algorithm — the
alternating right-to-left sum is divisible by 10. -/
def luhn_ref (digits : List Char) : Bool :=
  luhnRefGo false digits.reverse % 10 == 0

theorem luhnGo_cons (parity i : Nat) (c : Char) (r : List Char) :
    luhnGo parity i (c :: r) =
      luhnDigit (decide (i % 2 = parity)) c + luhnGo parity (i + 1) r := by
  by_cases h : i % 2 = parity <;> simp [luhnGo, luhnDigit, h]

theorem luhnGo_eq_refGo : ∀ (d : List Char) (parity i : Nat), parity < 2 →
    luhnGo parity i d = luhnRefGo (decide (i % 2 = parity)) d := by
  intro d
  induction d with
  | nil => intro parity i _; rfl
  | cons c r ih =>
    intro parity i hp
    rw [luhnGo_cons, ih parity (i + 1) hp]
    have hflip : decide ((i + 1) % 2 = parity) = !decide (i % 2 = parity) := by
      interval_cases parity <;>
        rcases Nat.mod_two_eq_zero_or_one i with h | h <;>
          simp [Nat.add_mod, h]
    rw [luhnRefGo, hflip]

theorem luhnRefGo_append : ∀ (l : List Char) (b : Bool) (x : Char),
    luhnRefGo b (l ++ [x]) =
      luhnRefGo b l + luhnDigit (xor b (decide (l.length % 2 = 1))) x := by
  intro l
  induction l with
  | nil => intro b x; simp [luhnRefGo]
  | cons c r ih =>
    intro b x
    simp only [List.cons_append, luhnRefGo, List.append_eq, List.length_cons]
    rw [ih (!b) x]
    have hflip : xor (!b) (decide (r.length % 2 = 1)) =
        xor b (decide ((r.length + 1) % 2 = 1)) := by
      rcases Nat.mod_two_eq_zero_or_one r.length with h | h <;>
        cases b <;> simp [Nat.add_mod, h]
    rw [hflip]
    omega

theorem luhnRefGo_reverse : ∀ d : List Char,
    luhnRefGo (decide (d.length % 2 = 0)) d = luhnRefGo false d.reverse := by
  intro d
  induction d with
  | nil => rfl
  | cons c r ih =>
    have h1 : decide ((r.length + 1) % 2 = 0) = decide (r.length % 2 = 1) := by
      rcases Nat.mod_two_eq_zero_or_one r.length with h | h <;>
        simp [Nat.add_mod, h]
    have h2 : (!decide ((r.length + 1) % 2 = 0)) = decide (r.length % 2 = 0) := by
      rcases Nat.mod_two_eq_zero_or_one r.length with h | h <;>
        simp [Nat.add_mod, h]
    calc luhnRefGo (decide ((c :: r).length % 2 = 0)) (c :: r)
        = luhnDigit (decide ((r.length + 1) % 2 = 0)) c +
            luhnRefGo (!decide ((r.length + 1) % 2 = 0)) r := by
          simp [luhnRefGo]
      _ = luhnDigit (decide (r.length % 2 = 1)) c +
            luhnRefGo false r.reverse := by rw [h2, h1, ih]
      _ = luhnRefGo false (r.reverse ++ [c]) := by
          rw [luhnRefGo_append]
          simp [List.length_reverse]
          omega
      _ = luhnRefGo false (c :: r).reverse := by simp

theorem luhn_agrees (d : List Char) : luhn_is_valid d = luhn_ref d := by
  unfold luhn_is_valid luhn_ref
  have h1 : luhnGo (d.length % 2) 0 d =
      luhnRefGo (decide (0 % 2 = d.length % 2)) d :=
    luhnGo_eq_refGo d (d.length % 2) 0 (Nat.mod_lt _ (by omega))
  have h2 : decide ((0 : Nat) % 2 = d.length % 2) = decide (d.length % 2 = 0) := by
    rcases Nat.mod_two_eq_zero_or_one d.length with h | h <;> simp [h]
  rw [h1, h2, luhnRefGo_reverse]

/-! ### The scanners' fuel is irrelevant once it covers the text length

Every scan step consumes at least one character, so any fuel of at least
the text length produces the same result; the `fuel = text.length` choice
in `redact_ssns` / `redact_pans` therefore computes the unbounded
`re.sub` scan. -/

theorem matchSSN_consumes {pw : Bool} {s m rest : List Char}
    (h : matchSSN pw s = some (m, rest)) : rest.length < s.length := by
  obtain ⟨g1, g2⟩ := matchSSN_eq h
  have hm : 9 ≤ m.length := le_trans g2 (List.length_filter_le _ m)
  have hsum : m.length + rest.length = s.length := by
    rw [← g1]
    simp
  omega

theorem matchPAN_consumes {pw : Bool} {s m rest : List Char}
    (h : matchPAN pw s = some (m, rest)) : rest.length < s.length := by
  obtain ⟨g1, g2, -⟩ := matchPAN_eq h
  have hm : 13 ≤ m.length := le_trans g2 (List.length_filter_le _ m)
  have hsum : m.length + rest.length = s.length := by
    rw [← g1]
    simp
  omega

theorem subSSN_fuel : ∀ (fuel1 fuel2 : Nat) (pw : Bool) (s : List Char),
    s.length ≤ fuel1 → s.length ≤ fuel2 →
    subSSN fuel1 pw s = subSSN fuel2 pw s := by
  intro fuel1
  induction fuel1 with
  | zero =>
    intro fuel2 pw s h1 _
    have hs : s = [] := List.eq_nil_of_length_eq_zero (by omega)
    subst hs
    rw [subSSN_nil, subSSN_nil]
  | succ fuel1 ih =>
    intro fuel2 pw s h1 h2
    cases s with
    | nil => rw [subSSN_nil, subSSN_nil]
    | cons c r =>
      cases fuel2 with
      | zero => simp at h2
      | succ fuel2 =>
        simp only [subSSN]
        rcases hm : matchSSN pw (c :: r) with _ | ⟨m, rest⟩
        · simp only
          rw [ih fuel2 (isWordChar c) r (by simp at h1 ⊢; omega)
            (by simp at h2 ⊢; omega)]
        · simp only
          have hc := matchSSN_consumes hm
          rw [ih fuel2 (prevAfter pw m) rest (by simp at h1 hc ⊢; omega)
            (by simp at h2 hc ⊢; omega)]

theorem subPAN_fuel : ∀ (fuel1 fuel2 : Nat) (pw : Bool) (s : List Char),
    s.length ≤ fuel1 → s.length ≤ fuel2 →
    subPAN fuel1 pw s = subPAN fuel2 pw s := by
  intro fuel1
  induction fuel1 with
  | zero =>
    intro fuel2 pw s h1 _
    have hs : s = [] := List.eq_nil_of_length_eq_zero (by omega)
    subst hs
    rw [subPAN_nil, subPAN_nil]
  | succ fuel1 ih =>
    intro fuel2 pw s h1 h2
    cases s with
    | nil => rw [subPAN_nil, subPAN_nil]
    | cons c r =>
      cases fuel2 with
      | zero => simp at h2
      | succ fuel2 =>
        simp only [subPAN]
        rcases hm : matchPAN pw (c :: r) with _ | ⟨m, rest⟩
        · simp only
          rw [ih fuel2 (isWordChar c) r (by simp at h1 ⊢; omega)
            (by simp at h2 ⊢; omega)]
        · simp only
          have hc := matchPAN_consumes hm
          rw [ih fuel2 (prevAfter pw m) rest (by simp at h1 hc ⊢; omega)
            (by simp at h2 hc ⊢; omega)]

theorem redact_ssns_fuel (text : List Char) (fuel : Nat)
    (h : text.length ≤ fuel) : subSSN fuel false text = redact_ssns text :=
  subSSN_fuel fuel text.length false text h le_rfl

theorem redact_pans_fuel (text : List Char) (fuel : Nat)
    (h : text.length ≤ fuel) : subPAN fuel false text = redact_pans text :=
  subPAN_fuel fuel text.length false text h le_rfl

/-! ### The output equals the input iff no redaction was counted -/

theorem redact_text_eq_iff (text : List Char) (ds dp : Bool) :
    (redact_text text ds dp).1 = text ↔
      (redact_text text ds dp).2.ssn_redactions = 0 ∧
      (redact_text text ds dp).2.pan_redactions = 0 := by
  cases ds <;> cases dp
  · simp [redact_text]
  · -- PAN pass only
    have hrt : redact_text text false true =
        ((subPAN text.length false text).1,
          ⟨0, (subPAN text.length false text).2⟩) := by
      simp [redact_text, redact_pans]
    rw [hrt]
    dsimp only
    constructor
    · intro ht
      have hd := subPAN_digits text.length false text
      have he : (normalize_digits (subPAN text.length false text).1).length =
          (normalize_digits text).length := by rw [ht]
      exact ⟨rfl, by omega⟩
    · rintro ⟨-, h2⟩
      exact subPAN_count_zero _ _ _ h2
  · -- SSN pass only
    have hrt : redact_text text true false =
        ((subSSN text.length false text).1,
          ⟨(subSSN text.length false text).2, 0⟩) := by
      simp [redact_text, redact_ssns]
    rw [hrt]
    dsimp only
    constructor
    · intro ht
      have hd := subSSN_digits text.length false text
      have he : (normalize_digits (subSSN text.length false text).1).length =
          (normalize_digits text).length := by rw [ht]
      exact ⟨by omega, rfl⟩
    · rintro ⟨h1, -⟩
      exact subSSN_count_zero _ _ _ h1
  · -- both passes
    have hrt : redact_text text true true =
        ((subPAN (subSSN text.length false text).1.length false
            (subSSN text.length false text).1).1,
          ⟨(subSSN text.length false text).2,
            (subPAN (subSSN text.length false text).1.length false
              (subSSN text.length false text).1).2⟩) := by
      simp [redact_text, redact_ssns, redact_pans]
    rw [hrt]
    dsimp only
    constructor
    · intro ht
      have hd1 := subSSN_digits text.length false text
      have hd2 := subPAN_digits (subSSN text.length false text).1.length false
        (subSSN text.length false text).1
      have he : (normalize_digits (subPAN (subSSN text.length false text).1.length
          false (subSSN text.length false text).1).1).length =
          (normalize_digits text).length := by rw [ht]
      omega
    · rintro ⟨h1, h2⟩
      have e1 : (subSSN text.length false text).1 = text :=
        subSSN_count_zero _ _ _ h1
      rw [e1] at h2 ⊢
      exact subPAN_count_zero _ _ _ h2

/-! ### Claim theorems -/

/-- Claim C2: for every string of decimal digits, `luhn_is_valid` returns
true iff the standard Luhn reference algorithm accepts it (double every
second digit counting from the second-rightmost — equivalently every left
index whose parity equals the length mod 2 — subtract 9 from doubled values
above 9, sum, and test divisibility by 10).  Stated as an unconditional
equality of the two Boolean functions, which also witnesses determinism
(both sides are pure functions of the digit string).  Proved for all
character lists, in particular all digit strings. -/
theorem claim_C2 (d : List Char) : luhn_is_valid d = luhn_ref d :=
  luhn_agrees d

/-- Claim C10: every string matched by the PAN candidate pattern normalizes
to between 13 and 19 digits, so the digit-count rejection branch of
`redact_pans` is unreachable: a matched candidate can only be rejected by
the Luhn check. -/
theorem claim_C10 (pw : Bool) (s m rest : List Char)
    (h : matchPAN pw s = some (m, rest)) :
    13 ≤ (normalize_digits m).length ∧ (normalize_digits m).length ≤ 19 :=
  ⟨(matchPAN_eq h).2.1, (matchPAN_eq h).2.2⟩

theorem claim_C10_witness :
    13 ≤ (normalize_digits "4111111111111111".toList).length ∧
      (normalize_digits "4111111111111111".toList).length ≤ 19 :=
  claim_C10 false "4111111111111111".toList "4111111111111111".toList []
    (by decide)

/-- Claim C1: a string matched by the PAN candidate pattern is replaced by
`[REDACTED_PAN]` with the counter incremented iff its normalized digit
count lies in [13, 19] and the Luhn checksum passes; otherwise the original
substring is left unmodified.  Stated for a text that is exactly one
candidate span, together with the claim's two concrete instances:
`"4111111111111111"` is redacted with count 1 and `"1234567890123"`
(Luhn-invalid) is returned unchanged with count 0. -/
theorem claim_C1 :
    (∀ s m : List Char, matchPAN false s = some (m, []) →
      redact_pans s =
        if (13 ≤ (normalize_digits m).length ∧ (normalize_digits m).length ≤ 19) ∧
            luhn_is_valid (normalize_digits m) = true
        then (redTokPAN, 1) else (s, 0)) ∧
    redact_pans "4111111111111111".toList = (redTokPAN, 1) ∧
    redact_pans "1234567890123".toList = ("1234567890123".toList, 0) := by
  refine ⟨?_, by decide, by decide⟩
  intro s m h
  obtain ⟨g1, g2, g3⟩ := matchPAN_eq h
  rw [List.append_nil] at g1
  subst g1
  have hne : m ≠ [] := by
    intro hc
    subst hc
    simp [normalize_digits] at g2
  obtain ⟨c, r, rfl⟩ := List.exists_cons_of_ne_nil hne
  unfold redact_pans
  simp only [List.length_cons, subPAN, h]
  rw [subPAN_nil]
  by_cases hl : luhn_is_valid (normalize_digits (c :: r)) = true
  · simp [g2, g3, hl]
  · simp [g2, g3, hl]

theorem claim_C1_witness :
    redact_pans "4111111111111111".toList =
      (if (13 ≤ (normalize_digits "4111111111111111".toList).length ∧
            (normalize_digits "4111111111111111".toList).length ≤ 19) ∧
          luhn_is_valid (normalize_digits "4111111111111111".toList) = true
       then (redTokPAN, 1) else ("4111111111111111".toList, 0)) :=
  claim_C1.1 "4111111111111111".toList "4111111111111111".toList (by decide)

/-- Claim C3: every span matched by the SSN pattern is replaced by
`[REDACTED_SSN]` unconditionally (no checksum), incrementing the counter
once per replacement.  Stated for a text that is exactly one matched span,
together with the claim's concrete instances: `"SSN: 123-45-6789"` becomes
`"SSN: [REDACTED_SSN]"` with count 1, and the word-bounded inputs
`"123 45 6789"` and `"123456789"` are also redacted. -/
theorem claim_C3 :
    (∀ s m : List Char, matchSSN false s = some (m, []) →
      redact_ssns s = (redTokSSN, 1)) ∧
    redact_ssns "SSN: 123-45-6789".toList = ("SSN: [REDACTED_SSN]".toList, 1) ∧
    redact_ssns "123 45 6789".toList = (redTokSSN, 1) ∧
    redact_ssns "123456789".toList = (redTokSSN, 1) := by
  refine ⟨?_, by decide, by decide, by decide⟩
  intro s m h
  obtain ⟨g1, g2⟩ := matchSSN_eq h
  rw [List.append_nil] at g1
  subst g1
  have hne : m ≠ [] := by
    intro hc
    subst hc
    simp [normalize_digits] at g2
  obtain ⟨c, r, rfl⟩ := List.exists_cons_of_ne_nil hne
  unfold redact_ssns
  simp only [List.length_cons, subSSN, h]
  rw [subSSN_nil]
  simp

theorem claim_C3_witness :
    redact_ssns "123-45-6789".toList = (redTokSSN, 1) :=
  claim_C3.1 "123-45-6789".toList "123-45-6789".toList (by decide)

/-- Claim C4: with both categories enabled, `redact_text` is exactly the
composition of the SSN pass followed by the PAN pass on the SSN-redacted
text, with the two counters collected into the statistics. -/
theorem claim_C4 (text : List Char) :
    redact_text text true true =
      ((redact_pans (redact_ssns text).1).1,
        { ssn_redactions := (redact_ssns text).2,
          pan_redactions := (redact_pans (redact_ssns text).1).2 }) := by
  simp [redact_text]

/-- Claim C5: a text that is a single word-bounded run of exactly 16
Luhn-valid digits is redacted by `redact_pans` as one `[REDACTED_PAN]`
token with a count of exactly 1 — never as several shorter overlapping
candidates. -/
theorem claim_C5 (s : List Char) (hlen : s.length = 16)
    (hdig : ∀ c ∈ s, c.isDigit = true) (hluhn : luhn_is_valid s = true) :
    redact_pans s = (redTokPAN, 1) := by
  have hnd : normalize_digits s = s := normalize_digits_all hdig
  have hm : matchPAN false s = some (s, []) :=
    matchPAN_alldigit hdig (by omega) (by omega)
  have hne : s ≠ [] := by
    intro hc
    rw [hc] at hlen
    simp at hlen
  obtain ⟨c, r, rfl⟩ := List.exists_cons_of_ne_nil hne
  unfold redact_pans
  simp only [List.length_cons, subPAN, hm]
  rw [subPAN_nil]
  rw [if_pos (by rw [hnd, hlen]; omega), if_pos (by rw [hnd]; exact hluhn)]
  simp

theorem claim_C5_witness :
    redact_pans "4242424242424242".toList = (redTokPAN, 1) :=
  claim_C5 "4242424242424242".toList (by decide) (by decide) (by decide)

/-- Claim C6: a text containing no digit characters (in particular one made
only of `[REDACTED_SSN]` / `[REDACTED_PAN]` tokens and other non-digit
content) is a fixed point of `redact_text` under every flag configuration,
with both counters zero — redaction is idempotent on already-redacted
output. -/
theorem claim_C6 (text : List Char) (h : ∀ c ∈ text, c.isDigit = false)
    (ds dp : Bool) :
    redact_text text ds dp =
      (text, { ssn_redactions := 0, pan_redactions := 0 }) := by
  have h1 : redact_ssns text = (text, 0) := subSSN_nodigit _ _ _ h
  have h2 : redact_pans text = (text, 0) := subPAN_nodigit _ _ _ h
  unfold redact_text
  cases ds <;> cases dp <;> simp [h1, h2]

theorem claim_C6_witness :
    redact_text "[REDACTED_SSN] and [REDACTED_PAN]".toList true true =
      ("[REDACTED_SSN] and [REDACTED_PAN]".toList,
        { ssn_redactions := 0, pan_redactions := 0 }) :=
  claim_C6 "[REDACTED_SSN] and [REDACTED_PAN]".toList (by decide) true true

/-- Claim C7: with PAN redaction disabled, `redact_text` reports zero PAN
redactions and only the SSN pass (if enabled) touches the text; a
word-bounded Luhn-valid run of 16 or more digits — which the SSN pattern
cannot match — is returned completely unchanged with both counters zero. -/
theorem claim_C7 :
    (∀ (text : List Char) (ds : Bool),
      (redact_text text ds false).2.pan_redactions = 0 ∧
      (redact_text text ds false).1 =
        (if ds then (redact_ssns text).1 else text)) ∧
    (∀ (s : List Char) (ds : Bool), (∀ c ∈ s, c.isDigit = true) →
      16 ≤ s.length → luhn_is_valid (normalize_digits s) = true →
      redact_text s ds false =
        (s, { ssn_redactions := 0, pan_redactions := 0 })) := by
  constructor
  · intro text ds
    unfold redact_text
    cases ds <;> simp
  · intro s ds hdig hlen _
    have h1 : redact_ssns s = (s, 0) := subSSN_alldigit_false hdig (by omega) _
    unfold redact_text
    cases ds <;> simp [h1]

theorem claim_C7_witness :
    redact_text "4111111111111111".toList true false =
      ("4111111111111111".toList,
        { ssn_redactions := 0, pan_redactions := 0 }) :=
  claim_C7.2 "4111111111111111".toList true (by decide) (by decide) (by decide)

/-- Claim C8: a file whose raw bytes contain a NUL byte anywhere is skipped
before decoding: `processFile` returns `none` (nothing is written) and the
file contributes `(0, 0)` to the run-wide counters, for every decoder,
extension and flag configuration — in particular even when the decoded
portion would contain a valid SSN pattern. -/
theorem claim_C8 (suffix : List Char) (bytes : List Nat)
    (decode : List Nat → List Char) (ds dp : Bool)
    (h : bytes.contains 0 = true) :
    processFile suffix bytes decode ds dp = none ∧
    fileContribution suffix bytes decode ds dp = (0, 0) := by
  have hp : processFile suffix bytes decode ds dp = none := by
    unfold processFile
    split
    · rfl
    · simp [h]
  refine ⟨hp, ?_⟩
  unfold fileContribution
  rw [hp]

theorem claim_C8_witness :
    processFile ".txt".toList
        [83, 83, 78, 58, 32, 49, 50, 51, 45, 52, 53, 45, 54, 55, 56, 57, 0]
        (fun _ => "SSN: 123-45-6789".toList) true true = none ∧
      fileContribution ".txt".toList
        [83, 83, 78, 58, 32, 49, 50, 51, 45, 52, 53, 45, 54, 55, 56, 57, 0]
        (fun _ => "SSN: 123-45-6789".toList) true true = (0, 0) :=
  claim_C8 ".txt".toList
    [83, 83, 78, 58, 32, 49, 50, 51, 45, 52, 53, 45, 54, 55, 56, 57, 0]
    (fun _ => "SSN: 123-45-6789".toList) true true (by decide)

/-- Claim C9: the text returned by `redact_text` equals the input iff both
returned counters are zero, for every flag configuration; consequently the
pipeline's skip-when-output-identical check never discards a file with
nonzero redaction counts — for every non-skipped file the contribution to
the run-wide totals is exactly the pair of counters of `redact_text`. -/
theorem claim_C9 :
    (∀ (text : List Char) (ds dp : Bool),
      (redact_text text ds dp).1 = text ↔
        (redact_text text ds dp).2.ssn_redactions = 0 ∧
        (redact_text text ds dp).2.pan_redactions = 0) ∧
    (∀ (suffix : List Char) (bytes : List Nat) (decode : List Nat → List Char)
        (ds dp : Bool),
      binaryExts.contains (lowerStr suffix) = false → bytes.contains 0 = false →
      fileContribution suffix bytes decode ds dp =
        ((redact_text (decode bytes) ds dp).2.ssn_redactions,
          (redact_text (decode bytes) ds dp).2.pan_redactions)) := by
  refine ⟨redact_text_eq_iff, ?_⟩
  intro suffix bytes decode ds dp hext hnul
  unfold fileContribution processFile
  rw [hext, hnul]
  simp only [Bool.false_eq_true, if_false]
  by_cases hid : (redact_text (decode bytes) ds dp).1 = decode bytes
  · obtain ⟨z1, z2⟩ := (redact_text_eq_iff (decode bytes) ds dp).mp hid
    rw [if_pos hid]
    rw [z1, z2]
  · rw [if_neg hid]

theorem claim_C9_witness :
    fileContribution ".txt".toList [49] (fun _ => ['1']) true true =
      ((redact_text ['1'] true true).2.ssn_redactions,
        (redact_text ['1'] true true).2.pan_redactions) :=
  claim_C9.2 ".txt".toList [49] (fun _ => ['1']) true true (by decide) (by decide)
